import Mathlib

/-!
Verification of the happy-cube piece core: the 16-bit ring encoding of a
puzzle piece, its symmetry algebra (rotations by 4, 8, 12 positions and a
reflection of the ring), the raw piece enumerator, and the symmetry-reduced
count of distinct pieces.

The algebra functions `r0`, `r1`, `r2`, `r3`, `t`, `r1t`, `r2t`, `r3t` embed
src/src/piece/mod.rs; `Piece` and its methods embed the `Piece` type there;
`AllPieces` embeds src/src/enumeration/piece.rs.  A `u16` is embedded as a
`Nat` below 65536.
-/

set_option maxRecDepth 10000

namespace HCube

/-- Rust `bit_field`: `x.set_bit(i, b)` sets (b = true) or clears (b = false)
bit `i` of the 16-bit word `x`. -/
def setBit (x i : Nat) (b : Bool) : Nat :=
  if b then x ||| (1 <<< i) else x &&& (65535 ^^^ (1 <<< i))

/-- Common shape of the permutation loops in src/src/piece/mod.rs: start from
`result = 0` and, for each `bit_index` in `0..16` (`length = bit_length of u16
= 16`), write bit `bit_index` of `n` to bit `target bit_index` of the result. -/
def bitFieldPerm (target : Nat → Nat) (n : Nat) : Nat :=
  (List.range 16).foldl
    (fun result bitIndex => setBit result (target bitIndex) (n.testBit bitIndex)) 0

/-- Source `fn r0`: the identity. -/
def r0 (n : Nat) : Nat := n

/-- Source `fn r1`: target index `(bit_index + 4) % length`. -/
def r1 (n : Nat) : Nat := bitFieldPerm (fun bitIndex => (bitIndex + 4) % 16) n

/-- Source `fn r2`: target index `(bit_index + 8) % length`. -/
def r2 (n : Nat) : Nat := bitFieldPerm (fun bitIndex => (bitIndex + 8) % 16) n

/-- Source `fn r3`: target index `(bit_index + 12) % length`. -/
def r3 (n : Nat) : Nat := bitFieldPerm (fun bitIndex => (bitIndex + 12) % 16) n

/-- Source `fn t`: target index `(length - bit_index) % length`. -/
def t (n : Nat) : Nat := bitFieldPerm (fun bitIndex => (16 - bitIndex) % 16) n

/-- Source `fn r1t`: `t(r1(n))`. -/
def r1t (n : Nat) : Nat := t (r1 n)

/-- Source `fn r2t`: `t(r2(n))`. -/
def r2t (n : Nat) : Nat := t (r2 n)

/-- Source `fn r3t`: `t(r3(n))`. -/
def r3t (n : Nat) : Nat := t (r3 n)

/-- Source `struct Piece { index: u16 }` with derived structural equality. -/
structure Piece where
  index : Nat
  deriving DecidableEq

/-- Source `Piece::from_index`. -/
def Piece.from_index (index : Nat) : Piece :=
  { index := index }

/-- Source `Piece::rotate_clockwise`. -/
def Piece.rotate_clockwise (p : Piece) : Piece :=
  Piece.from_index (r1 p.index)

/-- Source `Piece::rotate_counter_clockwise`. -/
def Piece.rotate_counter_clockwise (p : Piece) : Piece :=
  Piece.from_index (r3 p.index)

/-- Source `Piece::flip`. -/
def Piece.flip (p : Piece) : Piece :=
  Piece.from_index (t p.index)

/-- Source `struct AllPieces { next_index: Option<u16> }`. -/
structure AllPieces where
  next_index : Option Nat

/-- Source `AllPieces::new`. -/
def AllPieces.new : AllPieces :=
  { next_index := some 0 }

/-- Source `fn all()`. -/
def all : AllPieces := AllPieces.new

/-- Source `impl Iterator for AllPieces`, `fn next`: stateful iteration is
embedded as explicit state passing, returning the yielded item and the
successor state. -/
def AllPieces.next (s : AllPieces) : Option Piece × AllPieces :=
  match s.next_index with
  | some index =>
      (some (Piece.from_index index),
        { next_index := if index ≠ 65535 then some (index + 1) else none })
  | none => (none, s)

/-- State of the iterator `all()` after `k` calls to `next`. -/
def stepsState : Nat → AllPieces
  | 0 => all
  | k + 1 => ((stepsState k).next).2

/-- Item returned by the `(k+1)`-st call to `next` on the iterator `all()`. -/
def output (k : Nat) : Option Piece :=
  ((stepsState k).next).1

/-- Modelled from the spec: the symmetry-reduced enumeration of section 4.3 is
not implemented under src; the orbit of a raw index is obtained by applying all
8 group elements to it. -/
def orbit (n : Nat) : List Nat :=
  [r0 n, r1 n, r2 n, r3 n, t n, r1t n, r2t n, r3t n]

/-- Modelled from the spec: the symmetry-reduced enumeration emits, for each
orbit, its numerically smallest index; so a raw index is emitted iff it is
less than or equal to every member of its own orbit. -/
def isCanonical (n : Nat) : Bool :=
  (orbit n).all (fun m => n ≤ m)

/-- Modelled from the spec: the number of canonical representatives emitted by
the symmetry-reduced enumeration over the full 65536-element domain. -/
def canonicalCount : Nat :=
  (List.range 65536).countP (fun n => isCanonical n)

/-- The eight transformations of the symmetry group as they appear in the
source: identity, the three rotations, the reflection, and the three composed
reflections. -/
def symmetryGroup : List (Nat → Nat) :=
  [r0, r1, r2, r3, t, r1t, r2t, r3t]

/-- Index map of a dihedral element: position `j` of the output reads position
`targetIndex a s j` of the input; `s = false` is a rotation, `s = true` a
reflection. -/
def targetIndex (a : Nat) (s : Bool) (j : Nat) : Nat :=
  if s then (16 + a - j) % 16 else (j + a) % 16

/-- A function on 16-bit words acts as the dihedral element with parameters
`(a, s)`: it preserves the 16-bit bound and permutes bit positions by
`targetIndex a s`. -/
def bitsAs (f : Nat → Nat) (a : Nat) (s : Bool) : Prop :=
  (∀ n, n < 65536 → f n < 65536) ∧
    ∀ n j, j < 16 → (f n).testBit j = n.testBit (targetIndex a s j)

/-- Arithmetic form of the rotate-by-4 permutation, used to evaluate the
symmetry-reduced count efficiently; proved pointwise equal to `r1`. -/
def fastR4 (n : Nat) : Nat := (n % 4096) * 16 + (n / 4096) % 16

/-- Arithmetic form of the rotate-by-8 permutation; proved pointwise equal to
`r2`. -/
def fastR8 (n : Nat) : Nat := (n % 256) * 256 + (n / 256) % 256

/-- Arithmetic form of the rotate-by-12 permutation; proved pointwise equal to
`r3`. -/
def fastR12 (n : Nat) : Nat := (n % 16) * 4096 + (n / 16) % 4096

/-- Arithmetic rotate-by-1 of a 16-bit word. -/
def fastR1 (n : Nat) : Nat := (n % 32768) * 2 + (n / 32768) % 2

/-- Arithmetic rotate-by-5 of a 16-bit word. -/
def fastR5 (n : Nat) : Nat := (n % 2048) * 32 + (n / 2048) % 32

/-- Arithmetic rotate-by-9 of a 16-bit word. -/
def fastR9 (n : Nat) : Nat := (n % 128) * 512 + (n / 128) % 512

/-- Arithmetic rotate-by-13 of a 16-bit word. -/
def fastR13 (n : Nat) : Nat := (n % 8) * 8192 + (n / 8) % 8192

/-- First butterfly stage of 16-bit reversal: swap adjacent bits. -/
def revStage1 (n : Nat) : Nat := ((n &&& 21845) <<< 1) ||| ((n >>> 1) &&& 21845)

/-- Second butterfly stage: swap adjacent 2-bit groups. -/
def revStage2 (n : Nat) : Nat := ((n &&& 13107) <<< 2) ||| ((n >>> 2) &&& 13107)

/-- Third butterfly stage: swap adjacent nibbles. -/
def revStage3 (n : Nat) : Nat := ((n &&& 3855) <<< 4) ||| ((n >>> 4) &&& 3855)

/-- Fourth butterfly stage: swap the two bytes. -/
def revStage4 (n : Nat) : Nat := ((n &&& 255) <<< 8) ||| ((n >>> 8) &&& 255)

/-- Reversal of the 16 low bits: bit `j` of the output is bit `15 - j` of the
input. -/
def rev16 (n : Nat) : Nat := revStage4 (revStage3 (revStage2 (revStage1 n)))

/-- Arithmetic form of the reflection `t`: rotate the reversed word by one. -/
def fastT (n : Nat) : Nat := fastR1 (rev16 n)

/-- Arithmetic form of `r1t`. -/
def fastR1t (n : Nat) : Nat := fastR13 (rev16 n)

/-- Arithmetic form of `r2t`. -/
def fastR2t (n : Nat) : Nat := fastR9 (rev16 n)

/-- Arithmetic form of `r3t`. -/
def fastR3t (n : Nat) : Nat := fastR5 (rev16 n)

/-- Evaluable form of `isCanonical`, sharing the bit reversal between the four
reflection checks; proved pointwise equal to `isCanonical` below 65536. -/
def isCanonicalFast (n : Nat) : Bool :=
  decide (n ≤ fastR4 n) && (decide (n ≤ fastR8 n) && (decide (n ≤ fastR12 n) &&
    (let v := rev16 n
     decide (n ≤ fastR1 v) && (decide (n ≤ fastR13 v) && (decide (n ≤ fastR9 v) &&
       decide (n ≤ fastR5 v))))))

/-- Contribution of a single index to the canonical count. -/
def cnt (n : Nat) : Nat := if isCanonicalFast n then 1 else 0

/-- Canonical count over the 16 consecutive indices starting at `lo`. -/
def strip16 (lo : Nat) : Nat :=
  cnt lo + (cnt (lo + 1) + (cnt (lo + 2) + (cnt (lo + 3) + (cnt (lo + 4) + (cnt (lo + 5) +
    (cnt (lo + 6) + (cnt (lo + 7) + (cnt (lo + 8) + (cnt (lo + 9) + (cnt (lo + 10) +
    (cnt (lo + 11) + (cnt (lo + 12) + (cnt (lo + 13) + (cnt (lo + 14) +
    (cnt (lo + 15) + 0)))))))))))))))

/-- Canonical count over the `16 * 2 ^ fuel` consecutive indices starting at
`lo`, by binary splitting (so that evaluation recurses only `fuel` deep). -/
def ccPow : Nat → Nat → Nat
  | 0, lo => strip16 lo
  | fuel + 1, lo => ccPow fuel lo + ccPow fuel (lo + 16 * 2 ^ fuel)

/-! Basic lemmas about `setBit` and the permutation loops. -/

theorem testBit_setBit (x : Nat) (b : Bool) {i j : Nat} (hj : j < 16) :
    (setBit x i b).testBit j = if j = i then b else x.testBit j := by
  unfold setBit
  have h65535 : (65535 : Nat) = 2 ^ 16 - 1 := by norm_num
  cases b with
  | false =>
      rw [if_neg (by simp)]
      rw [Nat.testBit_and, Nat.testBit_xor, Nat.one_shiftLeft, Nat.testBit_two_pow,
        h65535, Nat.testBit_two_pow_sub_one]
      by_cases h : j = i
      · subst h
        simp [hj]
      · have h' : ¬ i = j := fun hh => h hh.symm
        simp [hj, h, h']
  | true =>
      rw [if_pos rfl]
      rw [Nat.testBit_or, Nat.one_shiftLeft, Nat.testBit_two_pow]
      by_cases h : j = i
      · subst h
        simp
      · have h' : ¬ i = j := fun hh => h hh.symm
        simp [h, h']

theorem setBit_lt (x : Nat) (b : Bool) {i : Nat} (hx : x < 65536) (hi : i < 16) :
    setBit x i b < 65536 := by
  unfold setBit
  cases b with
  | false =>
      rw [if_neg (by simp)]
      exact lt_of_le_of_lt Nat.and_le_left hx
  | true =>
      rw [if_pos rfl]
      have h1 : (1 <<< i) < 2 ^ 16 := by
        rw [Nat.one_shiftLeft]
        calc (2 : Nat) ^ i ≤ 2 ^ 15 := Nat.pow_le_pow_right (by norm_num) (by omega)
        _ < 2 ^ 16 := by norm_num
      have h2 : x < 2 ^ 16 := by
        calc x < 65536 := hx
        _ = 2 ^ 16 := by norm_num
      calc x ||| (1 <<< i) < 2 ^ 16 := Nat.or_lt_two_pow h2 h1
      _ = 65536 := by norm_num

theorem foldl_setBit_lt (f : Nat → Nat) (n : Nat) :
    ∀ l : List Nat, (∀ i ∈ l, f i < 16) → ∀ acc, acc < 65536 →
      (l.foldl (fun result bitIndex => setBit result (f bitIndex) (n.testBit bitIndex)) acc)
        < 65536 := by
  intro l
  induction l with
  | nil => intro _ acc h; simpa using h
  | cons a as ih =>
      intro hf acc h
      simp only [List.foldl_cons]
      exact ih (fun i hi => hf i (by simp [hi])) _
        (setBit_lt _ _ h (hf a (by simp)))

theorem bitFieldPerm_lt (f : Nat → Nat) (hf : ∀ i, i < 16 → f i < 16) (n : Nat) :
    bitFieldPerm f n < 65536 :=
  foldl_setBit_lt f n (List.range 16) (fun i hi => hf i (List.mem_range.mp hi)) 0
    (by norm_num)

/-! Unfolded forms of the four permutation loops (the fold over the 16 concrete
bit indices, with every target index computed). -/

theorem r1_eq (n : Nat) :
    r1 n =
      setBit (setBit (setBit (setBit (setBit (setBit (setBit (setBit (setBit (setBit (setBit (setBit (setBit (setBit (setBit (setBit 0 4 (n.testBit 0)) 5 (n.testBit 1)) 6 (n.testBit 2)) 7 (n.testBit 3)) 8 (n.testBit 4)) 9 (n.testBit 5)) 10 (n.testBit 6)) 11 (n.testBit 7)) 12 (n.testBit 8)) 13 (n.testBit 9)) 14 (n.testBit 10)) 15 (n.testBit 11)) 0 (n.testBit 12)) 1 (n.testBit 13)) 2 (n.testBit 14)) 3 (n.testBit 15) := rfl

theorem r2_eq (n : Nat) :
    r2 n =
      setBit (setBit (setBit (setBit (setBit (setBit (setBit (setBit (setBit (setBit (setBit (setBit (setBit (setBit (setBit (setBit 0 8 (n.testBit 0)) 9 (n.testBit 1)) 10 (n.testBit 2)) 11 (n.testBit 3)) 12 (n.testBit 4)) 13 (n.testBit 5)) 14 (n.testBit 6)) 15 (n.testBit 7)) 0 (n.testBit 8)) 1 (n.testBit 9)) 2 (n.testBit 10)) 3 (n.testBit 11)) 4 (n.testBit 12)) 5 (n.testBit 13)) 6 (n.testBit 14)) 7 (n.testBit 15) := rfl

theorem r3_eq (n : Nat) :
    r3 n =
      setBit (setBit (setBit (setBit (setBit (setBit (setBit (setBit (setBit (setBit (setBit (setBit (setBit (setBit (setBit (setBit 0 12 (n.testBit 0)) 13 (n.testBit 1)) 14 (n.testBit 2)) 15 (n.testBit 3)) 0 (n.testBit 4)) 1 (n.testBit 5)) 2 (n.testBit 6)) 3 (n.testBit 7)) 4 (n.testBit 8)) 5 (n.testBit 9)) 6 (n.testBit 10)) 7 (n.testBit 11)) 8 (n.testBit 12)) 9 (n.testBit 13)) 10 (n.testBit 14)) 11 (n.testBit 15) := rfl

theorem t_eq (n : Nat) :
    t n =
      setBit (setBit (setBit (setBit (setBit (setBit (setBit (setBit (setBit (setBit (setBit (setBit (setBit (setBit (setBit (setBit 0 0 (n.testBit 0)) 15 (n.testBit 1)) 14 (n.testBit 2)) 13 (n.testBit 3)) 12 (n.testBit 4)) 11 (n.testBit 5)) 10 (n.testBit 6)) 9 (n.testBit 7)) 8 (n.testBit 8)) 7 (n.testBit 9)) 6 (n.testBit 10)) 5 (n.testBit 11)) 4 (n.testBit 12)) 3 (n.testBit 13)) 2 (n.testBit 14)) 1 (n.testBit 15) := rfl

/-! Bit-level characterisation of each source permutation. -/

theorem r1_testBit (n j : Nat) (hj : j < 16) :
    (r1 n).testBit j = n.testBit ((j + 12) % 16) := by
  rw [r1_eq]
  interval_cases j <;> simp [testBit_setBit, -Nat.testBit_zero]

theorem r2_testBit (n j : Nat) (hj : j < 16) :
    (r2 n).testBit j = n.testBit ((j + 8) % 16) := by
  rw [r2_eq]
  interval_cases j <;> simp [testBit_setBit, -Nat.testBit_zero]

theorem r3_testBit (n j : Nat) (hj : j < 16) :
    (r3 n).testBit j = n.testBit ((j + 4) % 16) := by
  rw [r3_eq]
  interval_cases j <;> simp [testBit_setBit, -Nat.testBit_zero]

theorem t_testBit (n j : Nat) (hj : j < 16) :
    (t n).testBit j = n.testBit ((16 - j) % 16) := by
  rw [t_eq]
  interval_cases j <;> simp [testBit_setBit, -Nat.testBit_zero]

theorem r1_lt (n : Nat) : r1 n < 65536 :=
  bitFieldPerm_lt _ (fun i _ => Nat.mod_lt _ (by norm_num)) n

theorem r2_lt (n : Nat) : r2 n < 65536 :=
  bitFieldPerm_lt _ (fun i _ => Nat.mod_lt _ (by norm_num)) n

theorem r3_lt (n : Nat) : r3 n < 65536 :=
  bitFieldPerm_lt _ (fun i _ => Nat.mod_lt _ (by norm_num)) n

theorem t_lt (n : Nat) : t n < 65536 :=
  bitFieldPerm_lt _ (fun i _ => Nat.mod_lt _ (by norm_num)) n

/-! The dihedral-parameter calculus: each group element acts on bit positions
by `targetIndex a s`, and composition acts on the parameters. -/

theorem bitsAs_r0 : bitsAs r0 0 false := by
  constructor
  · intro n hn; exact hn
  · intro n j hj
    simp [r0, targetIndex, Nat.mod_eq_of_lt hj]

theorem bitsAs_r1 : bitsAs r1 12 false := by
  constructor
  · intro n _; exact r1_lt n
  · intro n j hj
    rw [r1_testBit n j hj]
    rfl

theorem bitsAs_r2 : bitsAs r2 8 false := by
  constructor
  · intro n _; exact r2_lt n
  · intro n j hj
    rw [r2_testBit n j hj]
    rfl

theorem bitsAs_r3 : bitsAs r3 4 false := by
  constructor
  · intro n _; exact r3_lt n
  · intro n j hj
    rw [r3_testBit n j hj]
    rfl

theorem bitsAs_t : bitsAs t 0 true := by
  constructor
  · intro n _; exact t_lt n
  · intro n j hj
    rw [t_testBit n j hj]
    simp [targetIndex]

theorem bitsAs_comp {f g : Nat → Nat} {a b : Nat} {s r : Bool}
    (hf : bitsAs f a s) (hg : bitsAs g b r) (ha : a < 16) (hb : b < 16) :
    bitsAs (fun n => f (g n)) (if r then (16 + b - a) % 16 else (a + b) % 16)
      (Bool.xor s r) := by
  constructor
  · intro n hn
    exact hf.1 _ (hg.1 _ hn)
  · intro n j hj
    have ht : targetIndex a s j < 16 := by
      rcases s <;> simp only [targetIndex] <;> exact Nat.mod_lt _ (by norm_num)
    have h1 : (f (g n)).testBit j = (g n).testBit (targetIndex a s j) := hf.2 (g n) j hj
    have h2 : (g n).testBit (targetIndex a s j)
        = n.testBit (targetIndex b r (targetIndex a s j)) := hg.2 n _ ht
    rw [h1, h2]
    congr 1
    rcases s <;> rcases r <;> simp [targetIndex] <;> omega

theorem bitsAs_ext {f g : Nat → Nat} {a : Nat} {s : Bool}
    (hf : bitsAs f a s) (hg : bitsAs g a s) :
    ∀ n, n < 65536 → f n = g n := by
  intro n hn
  apply Nat.eq_of_testBit_eq
  intro j
  by_cases hj : j < 16
  · rw [hf.2 n j hj, hg.2 n j hj]
  · have h2 : (2 : Nat) ^ 16 ≤ 2 ^ j := Nat.pow_le_pow_right (by norm_num) (by omega)
    have hfn : f n < 2 ^ j := by
      have := hf.1 n hn
      omega
    have hgn : g n < 2 ^ j := by
      have := hg.1 n hn
      omega
    rw [Nat.testBit_lt_two_pow hfn, Nat.testBit_lt_two_pow hgn]

/-! Characterisation of the arithmetic forms. -/

theorem testBit_div_pow (n m j : Nat) : (n / 2 ^ m).testBit j = n.testBit (m + j) := by
  rw [Nat.testBit_to_div_mod, Nat.testBit_to_div_mod, Nat.div_div_eq_div_mul, ← pow_add]

theorem rotl_testBit (K n j : Nat) (hK0 : 0 < K) (hK : K < 16) (hj : j < 16) :
    ((n % 2 ^ (16 - K)) * 2 ^ K + (n / 2 ^ (16 - K)) % 2 ^ K).testBit j
      = n.testBit ((j + (16 - K)) % 16) := by
  rw [Nat.mul_comm]
  rw [Nat.testBit_mul_pow_two_add _ (Nat.mod_lt _ (Nat.pos_pow_of_pos K (by norm_num))) j]
  by_cases hjK : j < K
  · rw [if_pos hjK, Nat.testBit_mod_two_pow, testBit_div_pow]
    have he : (j + (16 - K)) % 16 = 16 - K + j := by omega
    simp [hjK, he]
  · rw [if_neg hjK, Nat.testBit_mod_two_pow]
    have hlt : j - K < 16 - K := by omega
    have he : (j + (16 - K)) % 16 = j - K := by omega
    simp [hlt, he]

theorem rotl_lt (K n : Nat) (hK : K < 16) :
    (n % 2 ^ (16 - K)) * 2 ^ K + (n / 2 ^ (16 - K)) % 2 ^ K < 65536 := by
  have h1 : n % 2 ^ (16 - K) < 2 ^ (16 - K) := Nat.mod_lt _ (Nat.pos_pow_of_pos _ (by norm_num))
  have h2 : (n / 2 ^ (16 - K)) % 2 ^ K < 2 ^ K := Nat.mod_lt _ (Nat.pos_pow_of_pos _ (by norm_num))
  have h3 : (n % 2 ^ (16 - K)) * 2 ^ K + (n / 2 ^ (16 - K)) % 2 ^ K
      < (n % 2 ^ (16 - K) + 1) * 2 ^ K := by
    rw [Nat.add_mul, Nat.one_mul]
    omega
  have h4 : (n % 2 ^ (16 - K) + 1) * 2 ^ K ≤ 2 ^ (16 - K) * 2 ^ K :=
    Nat.mul_le_mul_right _ h1
  have h5 : (2 : Nat) ^ (16 - K) * 2 ^ K = 2 ^ 16 := by
    rw [← pow_add]
    congr 1
    omega
  calc (n % 2 ^ (16 - K)) * 2 ^ K + (n / 2 ^ (16 - K)) % 2 ^ K
      < (n % 2 ^ (16 - K) + 1) * 2 ^ K := h3
  _ ≤ 2 ^ (16 - K) * 2 ^ K := h4
  _ = 2 ^ 16 := h5
  _ = 65536 := by norm_num

theorem bitsAs_fastR4 : bitsAs fastR4 12 false := by
  constructor
  · intro n _
    have h := rotl_lt 4 n (by norm_num)
    norm_num at h
    exact h
  · intro n j hj
    have h := rotl_testBit 4 n j (by norm_num) (by norm_num) hj
    norm_num at h
    exact h

theorem bitsAs_fastR8 : bitsAs fastR8 8 false := by
  constructor
  · intro n _
    have h := rotl_lt 8 n (by norm_num)
    norm_num at h
    exact h
  · intro n j hj
    have h := rotl_testBit 8 n j (by norm_num) (by norm_num) hj
    norm_num at h
    exact h

theorem bitsAs_fastR12 : bitsAs fastR12 4 false := by
  constructor
  · intro n _
    have h := rotl_lt 12 n (by norm_num)
    norm_num at h
    exact h
  · intro n j hj
    have h := rotl_testBit 12 n j (by norm_num) (by norm_num) hj
    norm_num at h
    exact h

theorem bitsAs_fastR1 : bitsAs fastR1 15 false := by
  constructor
  · intro n _
    have h := rotl_lt 1 n (by norm_num)
    norm_num at h
    exact h
  · intro n j hj
    have h := rotl_testBit 1 n j (by norm_num) (by norm_num) hj
    norm_num at h
    exact h

theorem bitsAs_fastR5 : bitsAs fastR5 11 false := by
  constructor
  · intro n _
    have h := rotl_lt 5 n (by norm_num)
    norm_num at h
    exact h
  · intro n j hj
    have h := rotl_testBit 5 n j (by norm_num) (by norm_num) hj
    norm_num at h
    exact h

theorem bitsAs_fastR9 : bitsAs fastR9 7 false := by
  constructor
  · intro n _
    have h := rotl_lt 9 n (by norm_num)
    norm_num at h
    exact h
  · intro n j hj
    have h := rotl_testBit 9 n j (by norm_num) (by norm_num) hj
    norm_num at h
    exact h

theorem bitsAs_fastR13 : bitsAs fastR13 3 false := by
  constructor
  · intro n _
    have h := rotl_lt 13 n (by norm_num)
    norm_num at h
    exact h
  · intro n j hj
    have h := rotl_testBit 13 n j (by norm_num) (by norm_num) hj
    norm_num at h
    exact h

theorem rev16_testBit (n j : Nat) (hj : j < 16) :
    (rev16 n).testBit j = n.testBit (15 - j) := by
  interval_cases j <;>
    simp only [rev16, revStage4, revStage3, revStage2, revStage1,
      Nat.testBit_or, Nat.testBit_and, Nat.testBit_shiftLeft, Nat.testBit_shiftRight] <;>
    simp [Nat.testBit_to_div_mod]

theorem rev16_lt (n : Nat) : rev16 n < 65536 := by
  have h1 : revStage3 (revStage2 (revStage1 n)) &&& 255 < 256 :=
    lt_of_le_of_lt Nat.and_le_right (by norm_num)
  have h2 : (revStage3 (revStage2 (revStage1 n)) &&& 255) <<< 8 < 2 ^ 16 := by
    rw [Nat.shiftLeft_eq]
    norm_num
    omega
  have h3 : (revStage3 (revStage2 (revStage1 n)) >>> 8) &&& 255 < 2 ^ 16 :=
    lt_of_le_of_lt Nat.and_le_right (by norm_num)
  have h4 := Nat.or_lt_two_pow h2 h3
  simpa [rev16, revStage4] using h4

theorem bitsAs_rev16 : bitsAs rev16 15 true := by
  constructor
  · intro n _
    exact rev16_lt n
  · intro n j hj
    rw [rev16_testBit n j hj]
    have e : (16 + 15 - j) % 16 = 15 - j := by omega
    simp [targetIndex, e]

theorem bitsAs_fastT : bitsAs fastT 0 true := by
  have h := bitsAs_comp bitsAs_fastR1 bitsAs_rev16 (by norm_num) (by norm_num)
  norm_num at h
  exact h

theorem bitsAs_fastR1t : bitsAs fastR1t 12 true := by
  have h := bitsAs_comp bitsAs_fastR13 bitsAs_rev16 (by norm_num) (by norm_num)
  norm_num at h
  exact h

theorem bitsAs_fastR2t : bitsAs fastR2t 8 true := by
  have h := bitsAs_comp bitsAs_fastR9 bitsAs_rev16 (by norm_num) (by norm_num)
  norm_num at h
  exact h

theorem bitsAs_fastR3t : bitsAs fastR3t 4 true := by
  have h := bitsAs_comp bitsAs_fastR5 bitsAs_rev16 (by norm_num) (by norm_num)
  norm_num at h
  exact h

theorem bitsAs_r1t : bitsAs r1t 12 true := by
  have h := bitsAs_comp bitsAs_t bitsAs_r1 (by norm_num) (by norm_num)
  norm_num at h
  exact h

theorem bitsAs_r2t : bitsAs r2t 8 true := by
  have h := bitsAs_comp bitsAs_t bitsAs_r2 (by norm_num) (by norm_num)
  norm_num at h
  exact h

theorem bitsAs_r3t : bitsAs r3t 4 true := by
  have h := bitsAs_comp bitsAs_t bitsAs_r3 (by norm_num) (by norm_num)
  norm_num at h
  exact h

/-! Pointwise agreement of the source permutations and their arithmetic forms
on the 16-bit domain, and transfer of the canonical count. -/

theorem isCanonical_eq_fast (n : Nat) (hn : n < 65536) :
    isCanonical n = isCanonicalFast n := by
  have e1 := bitsAs_ext bitsAs_r1 bitsAs_fastR4 n hn
  have e2 := bitsAs_ext bitsAs_r2 bitsAs_fastR8 n hn
  have e3 := bitsAs_ext bitsAs_r3 bitsAs_fastR12 n hn
  have e4 := bitsAs_ext bitsAs_t bitsAs_fastT n hn
  have e5 := bitsAs_ext bitsAs_r1t bitsAs_fastR1t n hn
  have e6 := bitsAs_ext bitsAs_r2t bitsAs_fastR2t n hn
  have e7 := bitsAs_ext bitsAs_r3t bitsAs_fastR3t n hn
  simp only [isCanonical, orbit, List.all_cons, List.all_nil, r0]
  rw [e1, e2, e3, e4, e5, e6, e7]
  simp only [isCanonicalFast, fastT, fastR1t, fastR2t, fastR3t]
  simp [Nat.le_refl]

theorem strip16_eq (lo : Nat) :
    strip16 lo = (List.range' lo 16).countP (fun n => isCanonicalFast n) := by
  simp only [List.range']
  simp only [List.countP_cons, List.countP_nil]
  simp [strip16, cnt, Nat.add_assoc]
  ring

theorem ccPow_eq (fuel : Nat) :
    ∀ lo, ccPow fuel lo = (List.range' lo (16 * 2 ^ fuel)).countP
      (fun n => isCanonicalFast n) := by
  induction fuel with
  | zero =>
      intro lo
      simp only [ccPow]
      rw [strip16_eq]
      norm_num
  | succ fuel ih =>
      intro lo
      simp only [ccPow]
      rw [ih lo, ih (lo + 16 * 2 ^ fuel)]
      rw [← List.countP_append]
      congr 1
      have happ := List.range'_append lo (16 * 2 ^ fuel) (16 * 2 ^ fuel) 1
      simp only [one_mul] at happ
      rw [happ]
      congr 1
      ring

theorem canonicalCount_eq_ccPow : canonicalCount = ccPow 12 0 := by
  have hcong : ∀ x ∈ List.range' 0 65536, (isCanonical x = true ↔ isCanonicalFast x = true) := by
    intro x hx
    have hlt : x < 65536 := by
      have := List.mem_range'_1.mp hx
      omega
    rw [isCanonical_eq_fast x hlt]
  calc canonicalCount = (List.range' 0 65536).countP (fun n => isCanonical n) := by
        rw [canonicalCount, List.range_eq_range']
  _ = (List.range' 0 65536).countP (fun n => isCanonicalFast n) := List.countP_congr hcong
  _ = ccPow 12 0 := by
        rw [ccPow_eq 12 0]
        norm_num

/-! State evolution of the raw enumerator. -/

theorem stepsState_eq (k : Nat) :
    stepsState k = { next_index := if k < 65536 then some k else none } := by
  induction k with
  | zero => simp [stepsState, all, AllPieces.new]
  | succ k ih =>
      have hstep : stepsState (k + 1) = ((stepsState k).next).2 := rfl
      rw [hstep, ih]
      by_cases hk : k < 65536
      · rw [if_pos hk]
        by_cases hk2 : k = 65535
        · subst hk2
          simp [AllPieces.next]
        · have h1 : k + 1 < 65536 := by omega
          simp [AllPieces.next, hk2, h1]
      · rw [if_neg hk]
        have h1 : ¬ (k + 1 < 65536) := by omega
        simp [AllPieces.next, h1]

/-! The claims. -/

/-- C2: for every u16 index `n` and bit index `i < 16`, bit `i` of `n` equals
bit `(i + 4) % 16` of `rotate_clockwise` of the piece with index `n` (a cyclic
shift of ring positions); in particular rotating the piece `0b10` yields the
piece `0b100000`. -/
theorem c2_rotate_clockwise_bits :
    (∀ n i : Nat, n < 65536 → i < 16 →
        n.testBit i = ((Piece.from_index n).rotate_clockwise.index).testBit ((i + 4) % 16)) ∧
      (Piece.from_index 2).rotate_clockwise = Piece.from_index 32 := by
  constructor
  · intro n i hn hi
    have hj : (i + 4) % 16 < 16 := Nat.mod_lt _ (by norm_num)
    have h := bitsAs_r1.2 n ((i + 4) % 16) hj
    have he : targetIndex 12 false ((i + 4) % 16) = i := by
      simp [targetIndex]
      omega
    rw [he] at h
    show n.testBit i = (r1 n).testBit ((i + 4) % 16)
    exact h.symm
  · decide

theorem c2_rotate_clockwise_bits_witness :
    (2 : Nat) < 65536 ∧ (1 : Nat) < 16 ∧
      Nat.testBit 2 1 = ((Piece.from_index 2).rotate_clockwise.index).testBit ((1 + 4) % 16) :=
  ⟨by norm_num, by norm_num, c2_rotate_clockwise_bits.1 2 1 (by norm_num) (by norm_num)⟩

/-- C3: for every u16 index `n` and bit index `i < 16`, bit `i` of `n` equals
bit `(16 - i) % 16` of `flip` of the piece with index `n`; in particular
flipping the piece `0b10` yields the piece with bit 15 set. -/
theorem c3_flip_bits :
    (∀ n i : Nat, n < 65536 → i < 16 →
        n.testBit i = ((Piece.from_index n).flip.index).testBit ((16 - i) % 16)) ∧
      (Piece.from_index 2).flip = Piece.from_index 32768 := by
  constructor
  · intro n i hn hi
    have hj : (16 - i) % 16 < 16 := Nat.mod_lt _ (by norm_num)
    have h := bitsAs_t.2 n ((16 - i) % 16) hj
    have he : targetIndex 0 true ((16 - i) % 16) = i := by
      simp [targetIndex]
      omega
    rw [he] at h
    show n.testBit i = (t n).testBit ((16 - i) % 16)
    exact h.symm
  · decide

theorem c3_flip_bits_witness :
    (2 : Nat) < 65536 ∧ (1 : Nat) < 16 ∧
      Nat.testBit 2 1 = ((Piece.from_index 2).flip.index).testBit ((16 - 1) % 16) :=
  ⟨by norm_num, by norm_num, c3_flip_bits.1 2 1 (by norm_num) (by norm_num)⟩

/-- C4: the raw enumerator started by `all()` yields, on its `(k+1)`-st call,
exactly the piece with index `k` for `k < 65536`, in ascending order, and
returns `none` for every call from the 65537-th on: it yields exactly the
65536 pieces `0` through `65535` once each, terminating only after `65535`
with no wraparound. -/
theorem c4_raw_enumeration :
    (∀ k, k < 65536 → output k = some (Piece.from_index k)) ∧
      (∀ k, 65536 ≤ k → output k = none) := by
  constructor
  · intro k hk
    rw [output, stepsState_eq, if_pos hk]
    simp [AllPieces.next]
  · intro k hk
    rw [output, stepsState_eq, if_neg (by omega)]
    simp [AllPieces.next]

theorem c4_raw_enumeration_witness :
    (65535 : Nat) < 65536 ∧ output 65535 = some (Piece.from_index 65535) :=
  ⟨by norm_num, c4_raw_enumeration.1 65535 (by norm_num)⟩

/-- C5: applying `rotate_clockwise` four times to any piece with a u16 index
returns the original piece. -/
theorem c5_rotation_order_four (n : Nat) (hn : n < 65536) :
    ((((Piece.from_index n).rotate_clockwise).rotate_clockwise).rotate_clockwise).rotate_clockwise
      = Piece.from_index n := by
  have h2 := bitsAs_comp bitsAs_r1 bitsAs_r1 (by norm_num) (by norm_num)
  norm_num at h2
  have h3 := bitsAs_comp bitsAs_r1 h2 (by norm_num) (by norm_num)
  norm_num at h3
  have h4 := bitsAs_comp bitsAs_r1 h3 (by norm_num) (by norm_num)
  norm_num at h4
  have he : r1 (r1 (r1 (r1 n))) = r0 n := bitsAs_ext h4 bitsAs_r0 n hn
  show Piece.from_index (r1 (r1 (r1 (r1 n)))) = Piece.from_index n
  rw [show r1 (r1 (r1 (r1 n))) = n from he]

theorem c5_rotation_order_four_witness :
    (2 : Nat) < 65536 ∧
      ((((Piece.from_index 2).rotate_clockwise).rotate_clockwise).rotate_clockwise).rotate_clockwise
        = Piece.from_index 2 :=
  ⟨by norm_num, c5_rotation_order_four 2 (by norm_num)⟩

/-- C6: `rotate_counter_clockwise` is the group inverse of `rotate_clockwise`:
applying the two in either order to any piece with a u16 index returns the
original piece. -/
theorem c6_rotation_inverse (n : Nat) (hn : n < 65536) :
    ((Piece.from_index n).rotate_clockwise).rotate_counter_clockwise = Piece.from_index n ∧
      ((Piece.from_index n).rotate_counter_clockwise).rotate_clockwise = Piece.from_index n := by
  have h1 := bitsAs_comp bitsAs_r3 bitsAs_r1 (by norm_num) (by norm_num)
  norm_num at h1
  have h2 := bitsAs_comp bitsAs_r1 bitsAs_r3 (by norm_num) (by norm_num)
  norm_num at h2
  constructor
  · show Piece.from_index (r3 (r1 n)) = Piece.from_index n
    rw [show r3 (r1 n) = r0 n from bitsAs_ext h1 bitsAs_r0 n hn]
    rfl
  · show Piece.from_index (r1 (r3 n)) = Piece.from_index n
    rw [show r1 (r3 n) = r0 n from bitsAs_ext h2 bitsAs_r0 n hn]
    rfl

theorem c6_rotation_inverse_witness :
    (2 : Nat) < 65536 ∧
      (((Piece.from_index 2).rotate_clockwise).rotate_counter_clockwise = Piece.from_index 2 ∧
        ((Piece.from_index 2).rotate_counter_clockwise).rotate_clockwise = Piece.from_index 2) :=
  ⟨by norm_num, c6_rotation_inverse 2 (by norm_num)⟩

/-- C7: `flip` is an involution: flipping any piece with a u16 index twice
returns the original piece. -/
theorem c7_flip_involution (n : Nat) (hn : n < 65536) :
    ((Piece.from_index n).flip).flip = Piece.from_index n := by
  have h1 := bitsAs_comp bitsAs_t bitsAs_t (by norm_num) (by norm_num)
  norm_num at h1
  show Piece.from_index (t (t n)) = Piece.from_index n
  rw [show t (t n) = r0 n from bitsAs_ext h1 bitsAs_r0 n hn]
  rfl

theorem c7_flip_involution_witness :
    (2 : Nat) < 65536 ∧ ((Piece.from_index 2).flip).flip = Piece.from_index 2 :=
  ⟨by norm_num, c7_flip_involution 2 (by norm_num)⟩

/-- C8: the eight transformations `r0`, `r1`, `r2`, `r3`, `t`, `r1t`, `r2t`,
`r3t` are pairwise distinct as functions on the u16 domain and closed under
composition there (the dihedral group of order 8); and reflect-then-rotate-by-k
for k in 4, 8, 12 gives exactly `r3t`, `r2t`, `r1t`. -/
theorem c8_dihedral_group :
    symmetryGroup.Pairwise (fun f g => ∃ n, n < 65536 ∧ f n ≠ g n) ∧
      (∀ f ∈ symmetryGroup, ∀ g ∈ symmetryGroup,
        ∃ h, h ∈ symmetryGroup ∧ ∀ n, n < 65536 → f (g n) = h n) ∧
      ((∀ n, n < 65536 → r1 (t n) = r3t n) ∧ (∀ n, n < 65536 → r2 (t n) = r2t n) ∧
        (∀ n, n < 65536 → r3 (t n) = r1t n)) := by
  have hmem : ∀ f ∈ symmetryGroup, ∃ a s, a < 16 ∧ a % 4 = 0 ∧ bitsAs f a s := by
    intro f hf
    simp only [symmetryGroup, List.mem_cons, List.not_mem_nil, or_false] at hf
    rcases hf with rfl | rfl | rfl | rfl | rfl | rfl | rfl | rfl
    · exact ⟨0, false, by norm_num, by norm_num, bitsAs_r0⟩
    · exact ⟨12, false, by norm_num, by norm_num, bitsAs_r1⟩
    · exact ⟨8, false, by norm_num, by norm_num, bitsAs_r2⟩
    · exact ⟨4, false, by norm_num, by norm_num, bitsAs_r3⟩
    · exact ⟨0, true, by norm_num, by norm_num, bitsAs_t⟩
    · exact ⟨12, true, by norm_num, by norm_num, bitsAs_r1t⟩
    · exact ⟨8, true, by norm_num, by norm_num, bitsAs_r2t⟩
    · exact ⟨4, true, by norm_num, by norm_num, bitsAs_r3t⟩
  have hback : ∀ a (s : Bool), a < 16 → a % 4 = 0 →
      ∃ h, h ∈ symmetryGroup ∧ bitsAs h a s := by
    intro a s ha ha4
    have hc : a = 0 ∨ a = 4 ∨ a = 8 ∨ a = 12 := by omega
    cases s with
    | false =>
        rcases hc with rfl | rfl | rfl | rfl
        · exact ⟨r0, by simp [symmetryGroup], bitsAs_r0⟩
        · exact ⟨r3, by simp [symmetryGroup], bitsAs_r3⟩
        · exact ⟨r2, by simp [symmetryGroup], bitsAs_r2⟩
        · exact ⟨r1, by simp [symmetryGroup], bitsAs_r1⟩
    | true =>
        rcases hc with rfl | rfl | rfl | rfl
        · exact ⟨t, by simp [symmetryGroup], bitsAs_t⟩
        · exact ⟨r3t, by simp [symmetryGroup], bitsAs_r3t⟩
        · exact ⟨r2t, by simp [symmetryGroup], bitsAs_r2t⟩
        · exact ⟨r1t, by simp [symmetryGroup], bitsAs_r1t⟩
  refine ⟨?_, ?_, ?_, ?_, ?_⟩
  · have hnd : (symmetryGroup.map (fun f => f 2)).Nodup := by decide
    have hp : symmetryGroup.Pairwise (fun f g => f 2 ≠ g 2) := List.pairwise_map.mp hnd
    exact hp.imp (fun h => ⟨2, by norm_num, h⟩)
  · intro f hf g hg
    obtain ⟨a, s, ha, ha4, hfa⟩ := hmem f hf
    obtain ⟨b, r, hb, hb4, hgb⟩ := hmem g hg
    have hcomp := bitsAs_comp hfa hgb ha hb
    have hAlt : (if r then (16 + b - a) % 16 else (a + b) % 16) < 16 := by
      cases r <;> simp <;> exact Nat.mod_lt _ (by norm_num)
    have hA4 : (if r then (16 + b - a) % 16 else (a + b) % 16) % 4 = 0 := by
      cases r <;> simp <;> omega
    obtain ⟨h, hh, hha⟩ := hback _ (Bool.xor s r) hAlt hA4
    exact ⟨h, hh, fun n hn => bitsAs_ext hcomp hha n hn⟩
  · intro n hn
    have hc := bitsAs_comp bitsAs_r1 bitsAs_t (by norm_num) (by norm_num)
    norm_num at hc
    exact bitsAs_ext hc bitsAs_r3t n hn
  · intro n hn
    have hc := bitsAs_comp bitsAs_r2 bitsAs_t (by norm_num) (by norm_num)
    norm_num at hc
    exact bitsAs_ext hc bitsAs_r2t n hn
  · intro n hn
    have hc := bitsAs_comp bitsAs_r3 bitsAs_t (by norm_num) (by norm_num)
    norm_num at hc
    exact bitsAs_ext hc bitsAs_r1t n hn

theorem c8_dihedral_group_witness :
    (2 : Nat) < 65536 ∧ r1 (t 2) = r3t 2 :=
  ⟨by norm_num, c8_dihedral_group.2.2.1 2 (by norm_num)⟩

/-- C9: every algebra function and every `Piece` operation is total on the u16
domain: for each u16 input the result is again a u16 value, and every bit
position read or written by the permutations lies in `0..16`. -/
theorem c9_totality (n : Nat) (hn : n < 65536) :
    (r0 n < 65536 ∧ r1 n < 65536 ∧ r2 n < 65536 ∧ r3 n < 65536 ∧ t n < 65536 ∧
        r1t n < 65536 ∧ r2t n < 65536 ∧ r3t n < 65536) ∧
      ((Piece.from_index n).index < 65536 ∧
        ((Piece.from_index n).rotate_clockwise).index < 65536 ∧
        ((Piece.from_index n).rotate_counter_clockwise).index < 65536 ∧
        ((Piece.from_index n).flip).index < 65536) ∧
      (∀ i, i < 16 → (i + 4) % 16 < 16 ∧ (i + 8) % 16 < 16 ∧ (i + 12) % 16 < 16 ∧
        (16 - i) % 16 < 16) := by
  refine ⟨⟨hn, r1_lt n, r2_lt n, r3_lt n, t_lt n, t_lt _, t_lt _, t_lt _⟩,
    ⟨hn, r1_lt n, r3_lt n, t_lt n⟩, ?_⟩
  intro i hi
  exact ⟨Nat.mod_lt _ (by norm_num), Nat.mod_lt _ (by norm_num),
    Nat.mod_lt _ (by norm_num), Nat.mod_lt _ (by norm_num)⟩

theorem c9_totality_witness :
    (0 : Nat) < 65536 ∧ r1 0 < 65536 :=
  ⟨by norm_num, (c9_totality 0 (by norm_num)).1.2.1⟩

/-- C10: the iterator is fused: a state whose cursor is `none` returns `none`
and leaves the state unchanged; the cursor first becomes `none` on the call
after the piece `65535` is yielded, and every call from then on returns
`none` with the cursor still `none` — the iterator never restarts or wraps
around. -/
theorem c10_iterator_fused :
    (∀ s : AllPieces, s.next_index = none → s.next = (none, s)) ∧
      output 65535 = some (Piece.from_index 65535) ∧
      (∀ k, 65536 ≤ k → (stepsState k).next_index = none ∧ output k = none) := by
  refine ⟨?_, ?_, ?_⟩
  · intro s hs
    have h : s = { next_index := none } := by
      cases s
      simp_all
    rw [h]
    rfl
  · rw [output, stepsState_eq, if_pos (by norm_num)]
    simp [AllPieces.next]
  · intro k hk
    constructor
    · rw [stepsState_eq, if_neg (by omega)]
    · rw [output, stepsState_eq, if_neg (by omega)]
      simp [AllPieces.next]

theorem c10_iterator_fused_witness :
    (65536 : Nat) ≤ 65536 ∧
      ((stepsState 65536).next_index = none ∧ output 65536 = none) :=
  ⟨le_refl _, c10_iterator_fused.2.2 65536 (le_refl _)⟩

/-! Exhaustive evaluation of the symmetry-reduced count, in 16 blocks of 4096
indices each so that each kernel check stays small. -/

set_option maxHeartbeats 0 in
theorem cc_block00 : ccPow 8 0 = 2706 := by decide

set_option maxHeartbeats 0 in
theorem cc_block01 : ccPow 8 4096 = 787 := by decide

set_option maxHeartbeats 0 in
theorem cc_block02 : ccPow 8 8192 = 2179 := by decide

set_option maxHeartbeats 0 in
theorem cc_block03 : ccPow 8 12288 = 1452 := by decide

set_option maxHeartbeats 0 in
theorem cc_block04 : ccPow 8 16384 = 623 := by decide

set_option maxHeartbeats 0 in
theorem cc_block05 : ccPow 8 20480 = 167 := by decide

set_option maxHeartbeats 0 in
theorem cc_block06 : ccPow 8 24576 = 353 := by decide

set_option maxHeartbeats 0 in
theorem cc_block07 : ccPow 8 28672 = 166 := by decide

set_option maxHeartbeats 0 in
theorem cc_block08 : ccPow 8 32768 = 0 := by decide

set_option maxHeartbeats 0 in
theorem cc_block09 : ccPow 8 36864 = 0 := by decide

set_option maxHeartbeats 0 in
theorem cc_block10 : ccPow 8 40960 = 37 := by decide

set_option maxHeartbeats 0 in
theorem cc_block11 : ccPow 8 45056 = 8 := by decide

set_option maxHeartbeats 0 in
theorem cc_block12 : ccPow 8 49152 = 0 := by decide

set_option maxHeartbeats 0 in
theorem cc_block13 : ccPow 8 53248 = 0 := by decide

set_option maxHeartbeats 0 in
theorem cc_block14 : ccPow 8 57344 = 5 := by decide

set_option maxHeartbeats 0 in
theorem cc_block15 : ccPow 8 61440 = 1 := by decide

theorem ccPow_succ (fuel lo : Nat) :
    ccPow (fuel + 1) lo = ccPow fuel lo + ccPow fuel (lo + 16 * 2 ^ fuel) := by
  simp [ccPow]

theorem ccPow_full_value : ccPow 12 0 = 8484 := by
  have e12 := ccPow_succ 11 0
  norm_num at e12
  have e11a := ccPow_succ 10 0
  norm_num at e11a
  have e11b := ccPow_succ 10 32768
  norm_num at e11b
  have e10a := ccPow_succ 9 0
  norm_num at e10a
  have e10b := ccPow_succ 9 16384
  norm_num at e10b
  have e10c := ccPow_succ 9 32768
  norm_num at e10c
  have e10d := ccPow_succ 9 49152
  norm_num at e10d
  have e9a := ccPow_succ 8 0
  norm_num at e9a
  have e9b := ccPow_succ 8 8192
  norm_num at e9b
  have e9c := ccPow_succ 8 16384
  norm_num at e9c
  have e9d := ccPow_succ 8 24576
  norm_num at e9d
  have e9e := ccPow_succ 8 32768
  norm_num at e9e
  have e9f := ccPow_succ 8 40960
  norm_num at e9f
  have e9g := ccPow_succ 8 49152
  norm_num at e9g
  have e9h := ccPow_succ 8 57344
  norm_num at e9h
  rw [e12, e11a, e11b, e10a, e10b, e10c, e10d, e9a, e9b, e9c, e9d, e9e, e9f, e9g, e9h,
    cc_block00, cc_block01, cc_block02, cc_block03, cc_block04, cc_block05, cc_block06,
    cc_block07, cc_block08, cc_block09, cc_block10, cc_block11, cc_block12, cc_block13,
    cc_block14, cc_block15]

theorem canonicalCount_val : canonicalCount = 8484 :=
  canonicalCount_eq_ccPow.trans ccPow_full_value

/-- C1 (amended): partitioning the full 65536-element u16 domain into orbits
under the 8-element symmetry group generated by `r1` and `t` and emitting the
numerically smallest index of each orbit emits exactly 8484 canonical
representatives (not the documented 8420). -/
theorem c1_reduced_count : canonicalCount = 8484 := canonicalCount_val

/-- C1 counterexample: the number of canonical representatives emitted over
the full 65536-element domain is not 8420 as the claim states. -/
theorem c1_reduced_count_not_8420 : canonicalCount ≠ 8420 := by
  rw [canonicalCount_val]
  norm_num

end HCube
